import Mathlib

/-!
# Verification of the PDF difference-detection engine

Shallow embedding of `src/PDF-Comparer/pdf_comparer.py`.

Modelling conventions:
* Python `float` is modelled by `ℚ` (the claims checked here do not hinge on
  binary rounding: all numeric comparisons below are at values where the
  IEEE-754 doubles and the exact rationals order identically).
* Python `str` is modelled by `List Char`.  `str.lower` is modelled by
  `Char.toLower` (exact for the ASCII texts considered), `str.strip` and the
  regex `\s+` use the ASCII whitespace set.
* The call `difflib.SequenceMatcher(None, a, b).ratio()` is modelled exactly,
  following CPython `Lib/difflib.py` (isjunk = None, autojunk = True):
  `b2j` with the popular-entry purge, `find_longest_match` with its `j2len`
  chain dictionary and the two non-junk extension loops (`self.bjunk` is empty
  because `isjunk` is `None`, so the two junk extension loops never run and
  are omitted), and the recursive block decomposition of
  `get_matching_blocks`, whose total matched size is what `ratio` sums.
* The per-page index sets `unmatched_orig` / `unmatched_mod` are CPython sets
  of `range(k)`.  Every element `v < k` occupies hash-table slot `v` (the
  table size always exceeds the largest element, `hash(v) = v`), so the set
  iterates ascending and `set.remove` keeps the remaining slots in place;
  they are therefore modelled as ascending lists of indices with removal.
* The page union `set(orig.keys()) | set(mod.keys())` iterates in hash-table
  slot order, which for non-contiguous page numbers is NOT ascending; it is
  modelled by `pyUnionOrder`, a faithful model of CPython `setobject.c`
  (open addressing with LINEAR_PROBES = 9, perturb shift 5, growth at
  fill*5 >= mask*3 to used*4 rounded up to a power of two).
* Filesystem work of `highlight_differences` / `compare_pdfs` is modelled as
  a list of effects (`os.makedirs`, one saved image per rendered page).
-/

/-- `TextBlock.bbox`: the four span coordinates (x0, y0, x1, y1). -/
structure BBox where
  x0 : ℚ
  y0 : ℚ
  x1 : ℚ
  y1 : ℚ
deriving DecidableEq, Repr

instance : Inhabited BBox := ⟨⟨0, 0, 0, 0⟩⟩

/-- The `TextBlock` dataclass of the source (bbox, text, page, font, size, color). -/
structure TextBlock where
  bbox : BBox
  text : List Char
  page : Nat
  font : List Char
  size : ℚ
  color : ℚ × ℚ × ℚ
deriving DecidableEq, Repr

instance : Inhabited TextBlock := ⟨⟨default, [], 0, [], 0, (0, 0, 0)⟩⟩

/-- The `PDFComparer` configuration (constructor arguments of the class). -/
structure PDFComparer where
  similarity_threshold : ℚ
  position_threshold : ℚ
  check_formatting : Bool
deriving DecidableEq, Repr

/-- The constructor defaults: 0.8, 5.0, True. -/
def defaultPDFComparer : PDFComparer := ⟨4/5, 5, true⟩

/-! ## Text normalization: `re.sub(r'\s+', ' ', text.lower().strip())` -/

/-- ASCII whitespace, the character class of `\s` / `str.strip` for ASCII text. -/
def pyIsSpace (c : Char) : Bool :=
  c = ' ' || c = '\t' || c = '\n' || c = '\r' || c = Char.ofNat 11 || c = Char.ofNat 12

/-- `str.lower` (exact on ASCII). -/
def pyLower (s : List Char) : List Char := s.map Char.toLower

/-- `str.strip()`: drop leading and trailing whitespace. -/
def pyStrip (s : List Char) : List Char :=
  ((s.dropWhile pyIsSpace).reverse.dropWhile pyIsSpace).reverse

/-- `re.sub(r'\s+', ' ', s)`: each maximal whitespace run becomes one space.
The flag records whether the previous character was inside a whitespace run
(so only the first character of a run emits the space). -/
def collapseAux : Bool → List Char → List Char
  | _, [] => []
  | inRun, c :: rest =>
    if pyIsSpace c then
      if inRun then collapseAux true rest else ' ' :: collapseAux true rest
    else c :: collapseAux false rest

def collapseSpaces (s : List Char) : List Char := collapseAux false s

/-- The normalization done by `calculate_text_similarity` on each argument. -/
def normalizeText (s : List Char) : List Char := collapseSpaces (pyStrip (pyLower s))

/-! ## difflib.SequenceMatcher model -/

/-- All positions of `c` in `b`, ascending: the raw `b2j` entry for `c`. -/
def charPositions (b : List Char) (c : Char) : List Nat :=
  (List.range b.length).filter (fun j => b.getD j ' ' == c)

/-- The autojunk purge of `__chain_b`: when `len(b) >= 200`, characters with
more than `len(b) // 100 + 1` occurrences are deleted from `b2j`. -/
def popularChar (b : List Char) (c : Char) : Bool :=
  decide (200 ≤ b.length) && decide (b.length / 100 + 1 < (charPositions b c).length)

/-- `b2j.get(c, [])` after the autojunk purge. -/
def b2jGet (b : List Char) (c : Char) : List Nat :=
  if popularChar b c then [] else charPositions b c

/-- The running best block of `find_longest_match`: `besti, bestj, bestsize`. -/
structure FLMState where
  besti : Nat
  bestj : Nat
  bestsize : Nat
deriving DecidableEq, Repr

/-- The chain length `k = j2len.get(j-1, 0) + 1` of the inner loop (for
`j = 0` Python reads `get(-1, 0) = 0`). -/
def chainK (j2lenPrev : List (Nat × Nat)) (j : Nat) : Nat :=
  (if j = 0 then 0 else ((j2lenPrev.lookup (j - 1)).getD 0)) + 1

/-- Inner loop of `find_longest_match` over the candidate positions
`b2j.get(a[i], [])`: `j < blo` is `continue`, `j >= bhi` is `break`,
`k = newj2len[j] = j2len.get(j-1, 0) + 1`, and the best block becomes
`(i-k+1, j-k+1, k)` when `k > bestsize`. -/
def flmInner (blo bhi i : Nat) (j2lenPrev : List (Nat × Nat)) :
    List Nat → List (Nat × Nat) → FLMState → List (Nat × Nat) × FLMState
  | [], nj, st => (nj, st)
  | j :: js, nj, st =>
    if j < blo then flmInner blo bhi i j2lenPrev js nj st
    else if bhi ≤ j then (nj, st)
    else
      let k := chainK j2lenPrev j
      let st' : FLMState := if st.bestsize < k then ⟨i + 1 - k, j + 1 - k, k⟩ else st
      flmInner blo bhi i j2lenPrev js ((j, k) :: nj) st'

/-- Outer loop of `find_longest_match` over `i in range(alo, ahi)`;
`j2len` is replaced by the freshly built `newj2len` after each `i`. -/
def flmOuter (a b : List Char) (blo bhi : Nat) :
    List Nat → List (Nat × Nat) → FLMState → FLMState
  | [], _, st => st
  | i :: is, j2len, st =>
    let p := flmInner blo bhi i j2len (b2jGet b (a.getD i ' ')) [] st
    flmOuter a b blo bhi is p.1 p.2

/-- First extension loop: grow the block backwards while the preceding
characters are equal (`self.bjunk` is empty, so the junk test is vacuous).
The fuel is structural only: each iteration lowers `besti` by one while the
guard keeps `alo < besti`, so starting the fuel at `besti` is exact. -/
def extendBackF (a b : List Char) (alo blo : Nat) : Nat → FLMState → FLMState
  | 0, st => st
  | fuel + 1, ⟨bi, bj, bs⟩ =>
    if alo < bi ∧ blo < bj ∧ a.getD (bi - 1) ' ' = b.getD (bj - 1) ' ' then
      extendBackF a b alo blo fuel ⟨bi - 1, bj - 1, bs + 1⟩
    else ⟨bi, bj, bs⟩

def extendBack (a b : List Char) (alo blo : Nat) (st : FLMState) : FLMState :=
  extendBackF a b alo blo st.besti st

/-- Second extension loop: grow the block forwards while the following
characters are equal.  Each iteration raises `besti + bestsize` by one while
the guard keeps it below `ahi`, so fuel `ahi - (besti + bestsize)` is exact. -/
def extendFwdF (a b : List Char) (ahi bhi : Nat) : Nat → FLMState → FLMState
  | 0, st => st
  | fuel + 1, ⟨bi, bj, bs⟩ =>
    if bi + bs < ahi ∧ bj + bs < bhi ∧ a.getD (bi + bs) ' ' = b.getD (bj + bs) ' ' then
      extendFwdF a b ahi bhi fuel ⟨bi, bj, bs + 1⟩
    else ⟨bi, bj, bs⟩

def extendFwd (a b : List Char) (ahi bhi : Nat) (st : FLMState) : FLMState :=
  extendFwdF a b ahi bhi (ahi - (st.besti + st.bestsize)) st

/-- `SequenceMatcher.find_longest_match(alo, ahi, blo, bhi)`. -/
def find_longest_match (a b : List Char) (alo ahi blo bhi : Nat) : FLMState :=
  extendFwd a b ahi bhi
    (extendBack a b alo blo
      (flmOuter a b blo bhi (List.range' alo (ahi - alo)) [] ⟨alo, blo, 0⟩))

/-- Total size of the matching blocks of `get_matching_blocks` restricted to
the window: the recursion of its work queue (left part only when
`alo < i and blo < j`, right part only when `i+k < ahi and j+k < bhi`).
The fuel only bounds the recursion depth; each recursive call strictly
shrinks the combined window length, so `(ahi - alo) + (bhi - blo) + 1`
units never run out (same reason the Python queue terminates). -/
def matchTotalF (a b : List Char) : Nat → Nat → Nat → Nat → Nat → Nat
  | 0, _, _, _, _ => 0
  | fuel + 1, alo, ahi, blo, bhi =>
    let st := find_longest_match a b alo ahi blo bhi
    if st.bestsize = 0 then 0
    else
      st.bestsize
        + (if alo < st.besti ∧ blo < st.bestj then
            matchTotalF a b fuel alo st.besti blo st.bestj
          else 0)
        + (if st.besti + st.bestsize < ahi ∧ st.bestj + st.bestsize < bhi then
            matchTotalF a b fuel (st.besti + st.bestsize) ahi (st.bestj + st.bestsize) bhi
          else 0)

/-- `sum(size for block in get_matching_blocks())` over the whole strings. -/
def matchTotal (a b : List Char) : Nat :=
  matchTotalF a b (a.length + b.length + 1) 0 a.length 0 b.length

/-- `SequenceMatcher.ratio()`: `2 * M / T`, and 1.0 when `T = 0`. -/
def ratioQ (a b : List Char) : ℚ :=
  if a.length + b.length = 0 then 1
  else 2 * (matchTotal a b : ℚ) / ((a.length : ℚ) + (b.length : ℚ))

/-- `PDFComparer.calculate_text_similarity`. -/
def calculate_text_similarity (text1 text2 : List Char) : ℚ :=
  ratioQ (normalizeText text1) (normalizeText text2)

/-! ## PDFComparer.blocks_are_similar -/

/-- `text_similar`: similarity ratio at least `similarity_threshold`
(the comparison in the source is `>=`). -/
def text_similar (cfg : PDFComparer) (block1 block2 : TextBlock) : Bool :=
  decide (cfg.similarity_threshold ≤ calculate_text_similarity block1.text block2.text)

/-- `position_similar`: all four bbox coordinates within `position_threshold`. -/
def position_similar (cfg : PDFComparer) (block1 block2 : TextBlock) : Bool :=
  decide (|block1.bbox.x0 - block2.bbox.x0| ≤ cfg.position_threshold) &&
  decide (|block1.bbox.y0 - block2.bbox.y0| ≤ cfg.position_threshold) &&
  decide (|block1.bbox.x1 - block2.bbox.x1| ≤ cfg.position_threshold) &&
  decide (|block1.bbox.y1 - block2.bbox.y1| ≤ cfg.position_threshold)

/-- `formatting_similar`: same font, size within 0.1 (strict), equal color. -/
def formatting_similar (block1 block2 : TextBlock) : Bool :=
  decide (block1.font = block2.font) &&
  decide (|block1.size - block2.size| < 1/10) &&
  decide (block1.color = block2.color)

/-- `PDFComparer.blocks_are_similar`. -/
def blocks_are_similar (cfg : PDFComparer) (block1 block2 : TextBlock) : Bool :=
  if cfg.check_formatting then
    text_similar cfg block1 block2 && position_similar cfg block1 block2 &&
      formatting_similar block1 block2
  else
    text_similar cfg block1 block2 && position_similar cfg block1 block2

/-! ## Per-page greedy matching (body of `find_differences`) -/

/-- Inner scan of one modified block over the unmatched original indices in
ascending (given) order; returns the first index whose block is similar
(`blocks_are_similar(mod_block, orig_block)`), the index removed on a match. -/
def scanOrig (sim : TextBlock → TextBlock → Bool) (mblk : TextBlock)
    (orig : List TextBlock) (avail : List Nat) : Option Nat :=
  avail.find? (fun j => sim mblk (orig.getD j default))

/-- The matching loop over modified indices `is` with available original
indices `avail`: returns the list of matched pairs (modified index, original
index) in match order, and the unmatched modified indices in order. -/
def pageTrace (sim : TextBlock → TextBlock → Bool) (orig mo : List TextBlock) :
    List Nat → List Nat → List (Nat × Nat) × List Nat
  | [], _ => ([], [])
  | i :: is, avail =>
    match scanOrig sim (mo.getD i default) orig avail with
    | some j =>
      let r := pageTrace sim orig mo is (avail.erase j)
      ((i, j) :: r.1, r.2)
    | none =>
      let r := pageTrace sim orig mo is avail
      (r.1, i :: r.2)

/-- Unmatched modified indices for one page, both sides nonempty. -/
def pageUnmatched (sim : TextBlock → TextBlock → Bool) (orig mo : List TextBlock) : List Nat :=
  (pageTrace sim orig mo (List.range mo.length) (List.range orig.length)).2

/-- One page of `find_differences` (the spec's `matchPage`): empty original
side returns all modified blocks, empty modified side returns nothing, else
the greedy matching loop runs and the unmatched modified blocks are returned
in their given order. -/
def matchPage (cfg : PDFComparer) (orig mo : List TextBlock) : List TextBlock :=
  if orig.isEmpty then mo
  else if mo.isEmpty then []
  else (pageUnmatched (blocks_are_similar cfg) orig mo).map (fun i => mo.getD i default)

/-! ## CPython set model for `set(orig.keys()) | set(mod.keys())`

Faithful to CPython `Objects/setobject.c` for nonnegative small-integer
keys (`hash(v) = v`, no deletions): open addressing starting at
`hash & mask`, a linear window of up to `LINEAR_PROBES = 9` extra slots when
`i + 9 <= mask`, then `perturb >>= 5; i = (i*5 + 1 + perturb) & mask`;
after an insertion the table grows when `fill*5 >= mask*3` to the smallest
power of two above `used*4` (`used*2` beyond 50000), re-inserting the
surviving entries in slot order with the same probing minus the equality
test.  Iteration yields entries in slot order.  The probe fuel
`table.length + 16` is never exhausted on the inputs evaluated here (the
perturb term of a small hash dies after one shift and the `i*5+1` walk then
cycles through all slots). -/

/-- Scan the linear window: the slot itself plus `m` following slots.
Returns `inl s` for the first unused slot `s`, `inr ()` if the key is found. -/
def pyScanWindow (table : List (Option Nat)) (x : Nat) : Nat → Nat → Option (Nat ⊕ Unit)
  | i, m =>
    match table.getD i none with
    | none => some (Sum.inl i)
    | some y =>
      if y = x then some (Sum.inr ())
      else match m with
        | 0 => none
        | m' + 1 => pyScanWindow table x (i + 1) m'

/-- The probe loop of `set_add_entry`. -/
def pyProbe (table : List (Option Nat)) (x : Nat) : Nat → Nat → Nat → Option (Nat ⊕ Unit)
  | 0, _, _ => none
  | fuel + 1, i, perturb =>
    let mask := table.length - 1
    let probes := if i + 9 ≤ mask then 9 else 0
    match pyScanWindow table x i probes with
    | some r => some r
    | none => pyProbe table x fuel ((i * 5 + 1 + perturb / 32) % (mask + 1)) (perturb / 32)

/-- The probe loop of `set_insert_clean` (resize path: no equality tests,
keys are known distinct). -/
def pyProbeClean (table : List (Option Nat)) : Nat → Nat → Nat → Option Nat
  | 0, _, _ => none
  | fuel + 1, i, perturb =>
    let mask := table.length - 1
    let probes := if i + 9 ≤ mask then 9 else 0
    let found := (List.range' i (probes + 1)).find? (fun s => (table.getD s none).isNone)
    match found with
    | some s => some s
    | none => pyProbeClean table fuel ((i * 5 + 1 + perturb / 32) % (mask + 1)) (perturb / 32)

/-- `set_insert_clean`: place `x` in the first free probed slot. -/
def pyInsertClean (table : List (Option Nat)) (x : Nat) : List (Option Nat) :=
  match pyProbeClean table (table.length + 16) (x % table.length) x with
  | some s => table.set s (some x)
  | none => table

/-- Smallest power of two (at least 8) strictly above `minused`
(`set_table_resize`). -/
def pyGrowSizeAux : Nat → Nat → Nat → Nat
  | 0, _, cur => cur
  | f + 1, minused, cur => if cur ≤ minused then pyGrowSizeAux f minused (cur * 2) else cur

def pyGrowSize (minused : Nat) : Nat := pyGrowSizeAux (minused + 1) minused 8

/-- A CPython set of nonnegative integers: the hash table and its fill. -/
structure PySet where
  table : List (Option Nat)
  fill : Nat
deriving Repr

def pySetEmpty : PySet := ⟨List.replicate 8 none, 0⟩

/-- Entries in slot (iteration) order. -/
def pySetElems (s : PySet) : List Nat := s.table.filterMap id

/-- `set_table_resize`: rebuild into a table of `pyGrowSize minused` slots,
re-inserting entries in slot order. -/
def pySetResize (s : PySet) (minused : Nat) : PySet :=
  let keys := pySetElems s
  ⟨keys.foldl pyInsertClean (List.replicate (pyGrowSize minused) none), keys.length⟩

/-- `set_add_entry` including the growth check after insertion. -/
def pySetInsert (s : PySet) (x : Nat) : PySet :=
  let mask := s.table.length - 1
  match pyProbe s.table x (s.table.length + 16) (x % (mask + 1)) x with
  | some (Sum.inr _) => s
  | some (Sum.inl slot) =>
    let t := s.table.set slot (some x)
    let fill := s.fill + 1
    if fill * 5 < mask * 3 then ⟨t, fill⟩
    else pySetResize ⟨t, fill⟩ (if 50000 < fill then fill * 2 else fill * 4)
  | none => s

def pySetOfList (xs : List Nat) : PySet := xs.foldl pySetInsert pySetEmpty

/-- `set_merge(so, other)` for sets without dummy entries: early return when
`other` is empty; one bulk resize when `(fill + other.used)*5 >= mask*3`;
then either a verbatim table copy (empty target with equal masks), clean
insertion (empty target, different masks), or ordinary insertion of the
other set's entries in its slot order. -/
def pySetMerge (so other : PySet) : PySet :=
  if other.fill = 0 then so
  else
    let so' :=
      if (so.table.length - 1) * 3 ≤ (so.fill + other.fill) * 5 then
        pySetResize so ((so.fill + other.fill) * 2)
      else so
    if so'.fill = 0 then
      if so'.table.length = other.table.length then other
      else ⟨(pySetElems other).foldl pyInsertClean so'.table, other.fill⟩
    else (pySetElems other).foldl pySetInsert so'

/-- Iteration order of `set(xs) | set(ys)` (`set_union`: copy the first set —
itself a merge into a fresh empty set — then merge the second). -/
def pyUnionOrder (xs ys : List Nat) : List Nat :=
  pySetElems (pySetMerge (pySetMerge pySetEmpty (pySetOfList xs)) (pySetOfList ys))

/-! ## find_differences over the two per-page stores -/

/-- A parsed revision: Python dict from page index to its ordered blocks
(association list in key-insertion order, as Python dicts iterate). -/
def Store : Type := List (Nat × List TextBlock)

/-- `dict.keys()` in order (first occurrence; a real dict has no duplicates). -/
def dedupFirstAux (seen : List Nat) : List Nat → List Nat
  | [] => []
  | x :: xs =>
    if seen.contains x then dedupFirstAux seen xs
    else x :: dedupFirstAux (x :: seen) xs

def dedupFirst (l : List Nat) : List Nat := dedupFirstAux [] l

def storeKeys (s : Store) : List Nat := dedupFirst (s.map Prod.fst)

/-- `store.get(p, [])`. -/
def storeLookup (s : Store) (p : Nat) : List TextBlock :=
  match s.find? (fun kv => kv.1 == p) with
  | some kv => kv.2
  | none => []

/-- `PDFComparer.find_differences`: iterate
`set(original.keys()) | set(modified.keys())` in CPython set order and
concatenate each page's result. -/
def find_differences (cfg : PDFComparer) (original modified : Store) : List TextBlock :=
  (pyUnionOrder (storeKeys original) (storeKeys modified)).flatMap
    (fun p => matchPage cfg (storeLookup original p) (storeLookup modified p))

/-! ## highlight_differences and compare_pdfs (filesystem effects) -/

/-- Observable filesystem actions of `highlight_differences`. -/
inductive FsEffect where
  | makeDirs : List Char → FsEffect
  | savePageImage : List Char → Nat → FsEffect
deriving DecidableEq, Repr

/-- Pages having at least one difference, in first-occurrence order
(`defaultdict` grouping keeps insertion order). -/
def pagesWithDiffs (diffs : List TextBlock) : List Nat :=
  dedupFirst (diffs.map TextBlock.page)

/-- `PDFComparer.highlight_differences`: `os.makedirs(output_dir, exist_ok=True)`
first, unconditionally; then, only when some page has differences, one saved
image per document page that has differences (filename keyed by the 1-based
page number). -/
def highlight_differences (pageCount : Nat) (diffs : List TextBlock)
    (output_dir : List Char) : List FsEffect :=
  FsEffect.makeDirs output_dir ::
    (if (pagesWithDiffs diffs).isEmpty then []
     else ((List.range pageCount).filter (fun p => (pagesWithDiffs diffs).contains p)).map
        (fun p => FsEffect.savePageImage output_dir (p + 1)))

/-- Terminal outcome reported by `compare_pdfs`. -/
inductive RunOutcome where
  | completed : Nat → RunOutcome
  | noDifferences : RunOutcome
deriving DecidableEq, Repr

/-- `compare_pdfs` after extraction: compute the differences; if any exist,
render highlights, otherwise report "No differences found" and touch nothing. -/
def compare_pdfs (cfg : PDFComparer) (original modified : Store) (pageCount : Nat)
    (output_dir : List Char) : RunOutcome × List FsEffect :=
  let diffs := find_differences cfg original modified
  if diffs.isEmpty then (RunOutcome.noDifferences, [])
  else (RunOutcome.completed diffs.length, highlight_differences pageCount diffs output_dir)

/-! ## Invariants for the equal-strings analysis of find_longest_match

`runLen u i` is the length of the maximal run of positions ending at `i`
whose characters survive in `b2j` (are not autojunk-purged); `maxRun u i0`
is its maximum over `i < i0`.  `J2Pre` and `BestPre` are the loop invariants
of the `j2len` dictionary and the running best block when both sequences
are the same string `u`. -/

def runLen (u : List Char) : Nat → Nat
  | 0 => if b2jGet u (u.getD 0 ' ') = [] then 0 else 1
  | i + 1 => if b2jGet u (u.getD (i + 1) ' ') = [] then 0 else runLen u i + 1

def maxRun (u : List Char) : Nat → Nat
  | 0 => 0
  | i + 1 => max (maxRun u i) (runLen u i)

def J2Pre (u : List Char) (i0 : Nat) (pl : List (Nat × Nat)) : Prop :=
  (∀ j k, pl.lookup j = some k →
      j < u.length ∧ u.getD j ' ' = u.getD (i0 - 1) ' ' ∧
      b2jGet u (u.getD j ' ') ≠ [] ∧ 1 ≤ i0 ∧
      k ≤ runLen u (i0 - 1) ∧ k ≤ runLen u j)
  ∧ (1 ≤ i0 → b2jGet u (u.getD (i0 - 1) ' ') ≠ [] →
      pl.lookup (i0 - 1) = some (runLen u (i0 - 1)))

def BestPre (u : List Char) (i0 : Nat) (st : FLMState) : Prop :=
  st.besti = st.bestj ∧ maxRun u i0 ≤ st.bestsize ∧
  st.besti + st.bestsize ≤ i0 ∧ (st.bestsize = 0 → st.besti = 0)

/-! ## Sample data used by witnesses and counterexamples -/

def helloChars : List Char := ['H', 'e', 'l', 'l', 'o']
def halloChars : List Char := ['H', 'a', 'l', 'l', 'o']
def worldChars : List Char := ['W', 'o', 'r', 'l', 'd']
def outDirChars : List Char := ['o', 'u', 't']

def blkHello : TextBlock := ⟨⟨0, 0, 50, 10⟩, helloChars, 0, [], 12, (0, 0, 0)⟩
def blkHallo : TextBlock := ⟨⟨0, 0, 50, 10⟩, halloChars, 0, [], 12, (0, 0, 0)⟩
def blkWorld : TextBlock := ⟨⟨0, 20, 50, 30⟩, worldChars, 0, [], 12, (0, 0, 0)⟩

def abChars : List Char := ['a', 'b']
def bacbChars : List Char := ['b', 'a', 'c', 'b']
def abSpaceChars : List Char := ['a', 'b', ' ']

/-- `blkHello` moved by `position_threshold + 0.1` in the x0 coordinate. -/
def blkMoved : TextBlock := ⟨⟨51/10, 0, 50, 10⟩, helloChars, 0, [], 12, (0, 0, 0)⟩

/-- The matched pairs (modified index, original index) of one page's run. -/
def pageMatchPairs (sim : TextBlock → TextBlock → Bool) (orig mo : List TextBlock) :
    List (Nat × Nat) :=
  (pageTrace sim orig mo (List.range mo.length) (List.range orig.length)).1

def blkPage1 : TextBlock := ⟨⟨0, 0, 10, 10⟩, ['x'], 1, [], 12, (0, 0, 0)⟩
def blkPage8 : TextBlock := ⟨⟨0, 0, 10, 10⟩, ['y'], 8, [], 12, (0, 0, 0)⟩

/-- A modified store holding pages 1 and 8 only (original store empty). -/
def c4ModStore : Store := [(1, [blkPage1]), (8, [blkPage8])]

/-! ## Basic facts about matchPage -/

/-- Empty original side: the modified blocks are returned unchanged. -/
theorem matchPage_nil_left (cfg : PDFComparer) (X : List TextBlock) :
    matchPage cfg [] X = X := by
  simp [matchPage]

/-- Empty modified side: no differences, whatever the original side holds. -/
theorem matchPage_nil_right (cfg : PDFComparer) (X : List TextBlock) :
    matchPage cfg X [] = [] := by
  cases X <;> simp [matchPage]

/-- C2: a page whose original-side sequence is empty or absent contributes
every modified-side fragment as a difference, independently of the
similarity configuration; in particular `matchPage([], X) = X`. -/
theorem pdf_c2 (cfg cfg' : PDFComparer) (oS mS : Store) (p : Nat)
    (h : storeLookup oS p = []) :
    (∀ X : List TextBlock, matchPage cfg [] X = X)
    ∧ matchPage cfg (storeLookup oS p) (storeLookup mS p) = storeLookup mS p
    ∧ matchPage cfg (storeLookup oS p) (storeLookup mS p)
        = matchPage cfg' (storeLookup oS p) (storeLookup mS p) := by
  refine ⟨matchPage_nil_left cfg, ?_, ?_⟩ <;> simp [h, matchPage_nil_left]

/-- C2 witness: page 0 exists only in the modified store. -/
theorem pdf_c2_witness :
    matchPage defaultPDFComparer (storeLookup [] 0) (storeLookup [(0, [blkWorld])] 0)
      = storeLookup [(0, [blkWorld])] 0 :=
  (pdf_c2 defaultPDFComparer defaultPDFComparer [] [(0, [blkWorld])] 0 rfl).2.1

/-- C3: a page whose modified-side sequence is empty or absent contributes no
differences, however many original fragments it has; in particular
`matchPage(X, []) = []`. -/
theorem pdf_c3 (cfg : PDFComparer) (oS mS : Store) (p : Nat)
    (h : storeLookup mS p = []) :
    (∀ X : List TextBlock, matchPage cfg X [] = [])
    ∧ matchPage cfg (storeLookup oS p) (storeLookup mS p) = [] := by
  refine ⟨matchPage_nil_right cfg, ?_⟩
  rw [h, matchPage_nil_right]

/-- C3 witness: page 0 exists only in the original store. -/
theorem pdf_c3_witness :
    matchPage defaultPDFComparer (storeLookup [(0, [blkHello])] 0) (storeLookup [] 0) = [] :=
  (pdf_c3 defaultPDFComparer [(0, [blkHello])] [] 0 rfl).2

/-- C9: when the computed difference list is empty, `compare_pdfs` reports the
distinct no-differences outcome and performs no filesystem action at all. -/
theorem pdf_c9 (cfg : PDFComparer) (oS mS : Store) (pc : Nat) (dir : List Char)
    (h : find_differences cfg oS mS = []) :
    compare_pdfs cfg oS mS pc dir = (RunOutcome.noDifferences, []) := by
  simp [compare_pdfs, h]

unseal Rat.mul Rat.inv Rat.add Rat.sub in
/-- C9 witness: two identical one-page stores produce no differences and a
no-op run. -/
theorem pdf_c9_witness :
    compare_pdfs defaultPDFComparer [(0, [blkHello])] [(0, [blkHello])] 1 outDirChars
      = (RunOutcome.noDifferences, []) :=
  pdf_c9 defaultPDFComparer [(0, [blkHello])] [(0, [blkHello])] 1 outDirChars (by decide)

/-- C10: `highlight_differences` creates the output directory first,
unconditionally; with an empty difference list it still creates the
directory and writes no image. -/
theorem pdf_c10 :
    (∀ (pc : Nat) (diffs : List TextBlock) (dir : List Char),
        (highlight_differences pc diffs dir).head? = some (FsEffect.makeDirs dir))
    ∧ ∀ (pc : Nat) (dir : List Char),
        highlight_differences pc [] dir = [FsEffect.makeDirs dir] := by
  constructor
  · intro pc diffs dir
    simp [highlight_differences]
  · intro pc dir
    simp [highlight_differences, pagesWithDiffs, dedupFirst, dedupFirstAux]

/-! ### Equal-strings analysis of find_longest_match -/

theorem runLen_zero_eq (u : List Char) :
    runLen u 0 = if b2jGet u (u.getD 0 ' ') = [] then 0 else 1 := rfl

theorem runLen_succ_eq (u : List Char) (i : Nat) :
    runLen u (i + 1) = if b2jGet u (u.getD (i + 1) ' ') = [] then 0 else runLen u i + 1 := rfl

theorem maxRun_succ_eq (u : List Char) (i : Nat) :
    maxRun u (i + 1) = max (maxRun u i) (runLen u i) := rfl

theorem runLen_le (u : List Char) : ∀ i, runLen u i ≤ i + 1 := by
  intro i
  induction i with
  | zero => rw [runLen_zero_eq]; split <;> omega
  | succ i ih => rw [runLen_succ_eq]; split <;> omega

theorem runLen_le_maxRun (u : List Char) : ∀ i0 i, i < i0 → runLen u i ≤ maxRun u i0 := by
  intro i0
  induction i0 with
  | zero => intro i hi; omega
  | succ n ih =>
    intro i hi
    rw [maxRun_succ_eq]
    rcases Nat.lt_or_ge i n with h | h
    · exact le_trans (ih i h) (le_max_left _ _)
    · have : i = n := by omega
      subst this
      exact le_max_right _ _

theorem mem_b2jGet {u : List Char} {c : Char} {j : Nat} (h : j ∈ b2jGet u c) :
    j < u.length ∧ u.getD j ' ' = c := by
  unfold b2jGet at h
  split at h
  · simp at h
  · unfold charPositions at h
    simp only [List.mem_filter, List.mem_range] at h
    exact ⟨h.1, by simpa [beq_iff_eq] using h.2⟩

theorem b2jGet_pairwise (u : List Char) (c : Char) : (b2jGet u c).Pairwise (· < ·) := by
  unfold b2jGet
  split
  · simp
  · exact (List.pairwise_lt_range _).filter _

theorem self_mem_b2jGet {u : List Char} {i : Nat} (hi : i < u.length)
    (h : b2jGet u (u.getD i ' ') ≠ []) : i ∈ b2jGet u (u.getD i ' ') := by
  by_cases hb : popularChar u (u.getD i ' ') = true
  · exfalso
    unfold b2jGet at h
    rw [if_pos hb] at h
    exact h rfl
  · unfold b2jGet
    rw [if_neg hb]
    unfold charPositions
    simp only [List.mem_filter, List.mem_range]
    exact ⟨hi, by simp⟩

theorem mem_b2jGet_self_present {u : List Char} {i j : Nat}
    (hj : j ∈ b2jGet u (u.getD i ' ')) : b2jGet u (u.getD j ' ') ≠ [] := by
  have h := mem_b2jGet hj
  rw [h.2]
  exact List.ne_nil_of_mem hj

theorem runLen_pos {u : List Char} {i : Nat} (h : b2jGet u (u.getD i ' ') ≠ []) :
    1 ≤ runLen u i := by
  cases i with
  | zero => rw [runLen_zero_eq, if_neg h]
  | succ n => rw [runLen_succ_eq, if_neg h]; omega

theorem runLen_eq_zero {u : List Char} {i : Nat} (h : b2jGet u (u.getD i ' ') = []) :
    runLen u i = 0 := by
  cases i with
  | zero => rw [runLen_zero_eq, if_pos h]
  | succ n => rw [runLen_succ_eq, if_pos h]

theorem runLen_pred {u : List Char} {i : Nat} (h1 : 1 ≤ i)
    (h : b2jGet u (u.getD i ' ') ≠ []) : runLen u i = runLen u (i - 1) + 1 := by
  obtain ⟨m, rfl⟩ : ∃ m, i = m + 1 := ⟨i - 1, by omega⟩
  rw [runLen_succ_eq, if_neg h]
  simp

theorem chainK_zero (pl : List (Nat × Nat)) : chainK pl 0 = 1 := rfl

theorem chainK_ne_zero {j : Nat} (pl : List (Nat × Nat)) (h : j ≠ 0) :
    chainK pl j = (pl.lookup (j - 1)).getD 0 + 1 := by
  simp [chainK, h]

theorem chainK_bound {u : List Char} {i0 : Nat} {pl : List (Nat × Nat)} (hpl : J2Pre u i0 pl)
    {j : Nat} (hj : j ∈ b2jGet u (u.getD i0 ' ')) :
    chainK pl j ≤ runLen u i0 ∧ chainK pl j ≤ runLen u j := by
  have hpres_i : b2jGet u (u.getD i0 ' ') ≠ [] := List.ne_nil_of_mem hj
  have hpres_j := mem_b2jGet_self_present hj
  have h1 : 1 ≤ runLen u i0 := runLen_pos hpres_i
  have h2 : 1 ≤ runLen u j := runLen_pos hpres_j
  by_cases hj0 : j = 0
  · subst hj0
    rw [chainK_zero]
    omega
  · rw [chainK_ne_zero pl hj0]
    cases hlk : pl.lookup (j - 1) with
    | none => simp; omega
    | some kv =>
      obtain ⟨-, -, -, hi01, hk1, hk2⟩ := hpl.1 _ _ hlk
      have e1 : runLen u i0 = runLen u (i0 - 1) + 1 := runLen_pred hi01 hpres_i
      have e2 : runLen u j = runLen u (j - 1) + 1 := runLen_pred (by omega) hpres_j
      simp only [Option.getD_some]
      omega

theorem chainK_diag {u : List Char} {i0 : Nat} {pl : List (Nat × Nat)} (hpl : J2Pre u i0 pl)
    (hpres : b2jGet u (u.getD i0 ' ') ≠ []) :
    chainK pl i0 = runLen u i0 := by
  by_cases h0 : i0 = 0
  · subst h0
    rw [chainK_zero, runLen_zero_eq, if_neg hpres]
  · rw [chainK_ne_zero pl h0]
    have e1 : runLen u i0 = runLen u (i0 - 1) + 1 := runLen_pred (by omega) hpres
    by_cases hp : b2jGet u (u.getD (i0 - 1) ' ') = []
    · cases hlk : pl.lookup (i0 - 1) with
      | none =>
        have e0 : runLen u (i0 - 1) = 0 := runLen_eq_zero hp
        simp only [Option.getD_none]
        omega
      | some kv => exact absurd (hpl.1 _ _ hlk).2.2.1 (by simpa using hp)
    · rw [hpl.2 (by omega) hp]
      simp only [Option.getD_some]
      omega

theorem flmInner_nil (blo bhi i : Nat) (pl nj : List (Nat × Nat)) (st : FLMState) :
    flmInner blo bhi i pl [] nj st = (nj, st) := rfl

theorem flmInner_cons (blo bhi i : Nat) (pl : List (Nat × Nat)) (j : Nat) (js : List Nat)
    (nj : List (Nat × Nat)) (st : FLMState) :
    flmInner blo bhi i pl (j :: js) nj st =
      if j < blo then flmInner blo bhi i pl js nj st
      else if bhi ≤ j then (nj, st)
      else
        flmInner blo bhi i pl js ((j, chainK pl j) :: nj)
          (if st.bestsize < chainK pl j then
            ⟨i + 1 - chainK pl j, j + 1 - chainK pl j, chainK pl j⟩
          else st) := rfl

theorem flmOuter_nil (a b : List Char) (blo bhi : Nat) (j2len : List (Nat × Nat))
    (st : FLMState) : flmOuter a b blo bhi [] j2len st = st := rfl

theorem flmOuter_cons (a b : List Char) (blo bhi i : Nat) (is : List Nat)
    (j2len : List (Nat × Nat)) (st : FLMState) :
    flmOuter a b blo bhi (i :: is) j2len st =
      flmOuter a b blo bhi is
        (flmInner blo bhi i j2len (b2jGet b (a.getD i ' ')) [] st).1
        (flmInner blo bhi i j2len (b2jGet b (a.getD i ' ')) [] st).2 := rfl

theorem flmInner_nofire (blo bhi i : Nat) (pl : List (Nat × Nat)) :
    ∀ (l : List Nat) (nj : List (Nat × Nat)) (st : FLMState),
      (∀ j ∈ l, chainK pl j ≤ st.bestsize) →
      (flmInner blo bhi i pl l nj st).2 = st ∧
      (∀ x, x ∉ l → ((flmInner blo bhi i pl l nj st).1).lookup x = nj.lookup x) ∧
      (∀ x k, ((flmInner blo bhi i pl l nj st).1).lookup x = some k →
        nj.lookup x = some k ∨ (x ∈ l ∧ k = chainK pl x)) := by
  intro l
  induction l with
  | nil =>
    intro nj st h
    exact ⟨rfl, fun _ _ => rfl, fun x k hk => Or.inl hk⟩
  | cons j js ih =>
    intro nj st h
    rw [flmInner_cons]
    by_cases h1 : j < blo
    · rw [if_pos h1]
      obtain ⟨e1, e2, e3⟩ := ih nj st (fun x hx => h x (List.mem_cons_of_mem _ hx))
      refine ⟨e1, fun x hx => e2 x (fun hc => hx (List.mem_cons_of_mem _ hc)), fun x k hk => ?_⟩
      rcases e3 x k hk with h' | ⟨hm, hck⟩
      · exact Or.inl h'
      · exact Or.inr ⟨List.mem_cons_of_mem _ hm, hck⟩
    · rw [if_neg h1]
      by_cases h2 : bhi ≤ j
      · rw [if_pos h2]
        exact ⟨rfl, fun _ _ => rfl, fun x k hk => Or.inl hk⟩
      · rw [if_neg h2]
        have hk0 : ¬ st.bestsize < chainK pl j :=
          not_lt.mpr (h j (List.mem_cons_self _ _))
        rw [if_neg hk0]
        obtain ⟨e1, e2, e3⟩ := ih ((j, chainK pl j) :: nj) st
          (fun x hx => h x (List.mem_cons_of_mem _ hx))
        refine ⟨e1, ?_, ?_⟩
        · intro x hx
          have hxj : x ≠ j := fun hc => hx (hc ▸ List.mem_cons_self _ _)
          have hxjs : x ∉ js := fun hc => hx (List.mem_cons_of_mem _ hc)
          rw [e2 x hxjs, List.lookup_cons]
          simp [show (x == j) = false from beq_eq_false_iff_ne.mpr hxj]
        · intro x k hk
          rcases e3 x k hk with h' | h'
          · by_cases hxj : x = j
            · subst hxj
              rw [List.lookup_cons_self] at h'
              obtain rfl : chainK pl x = k := Option.some.inj h'
              exact Or.inr ⟨List.mem_cons_self _ _, rfl⟩
            · rw [List.lookup_cons] at h'
              simp only [show (x == j) = false from beq_eq_false_iff_ne.mpr hxj] at h'
              exact Or.inl h'
          · exact Or.inr ⟨List.mem_cons_of_mem _ h'.1, h'.2⟩

theorem flmInner_append (blo bhi i : Nat) (pl : List (Nat × Nat)) :
    ∀ (l1 l2 : List Nat) (nj : List (Nat × Nat)) (st : FLMState),
      (∀ j ∈ l1, j < bhi) →
      flmInner blo bhi i pl (l1 ++ l2) nj st =
        flmInner blo bhi i pl l2 (flmInner blo bhi i pl l1 nj st).1
          (flmInner blo bhi i pl l1 nj st).2 := by
  intro l1
  induction l1 with
  | nil => intro l2 nj st _; rfl
  | cons j js ih =>
    intro l2 nj st hb
    have hj : j < bhi := hb j (List.mem_cons_self _ _)
    rw [List.cons_append]
    rw [flmInner_cons, flmInner_cons]
    by_cases h1 : j < blo
    · rw [if_pos h1, if_pos h1]
      exact ih l2 nj st (fun x hx => hb x (List.mem_cons_of_mem _ hx))
    · rw [if_neg h1, if_neg h1, if_neg (not_le.mpr hj), if_neg (not_le.mpr hj)]
      exact ih l2 _ _ (fun x hx => hb x (List.mem_cons_of_mem _ hx))

theorem pairwise_split {l : List Nat} {i : Nat} (hp : l.Pairwise (· < ·)) (hi : i ∈ l) :
    ∃ L R, l = L ++ i :: R ∧ (∀ x ∈ L, x < i) ∧ (∀ x ∈ R, i < x) := by
  induction l with
  | nil => cases hi
  | cons a l ih =>
    rcases List.mem_cons.mp hi with rfl | h
    · exact ⟨[], l, rfl, by simp, fun x hx => (List.pairwise_cons.mp hp).1 x hx⟩
    · obtain ⟨L, R, hEq, hL, hR⟩ := ih (List.pairwise_cons.mp hp).2 h
      refine ⟨a :: L, R, by rw [hEq]; rfl, ?_, hR⟩
      intro x hx
      rcases List.mem_cons.mp hx with rfl | hx'
      · exact (List.pairwise_cons.mp hp).1 i h
      · exact hL x hx'

theorem flmInner_self_step (u : List Char) (i0 : Nat) (hi0 : i0 < u.length)
    (pl : List (Nat × Nat)) (st : FLMState)
    (hpl : J2Pre u i0 pl) (hst : BestPre u i0 st) :
    J2Pre u (i0 + 1) (flmInner 0 u.length i0 pl (b2jGet u (u.getD i0 ' ')) [] st).1 ∧
    BestPre u (i0 + 1) (flmInner 0 u.length i0 pl (b2jGet u (u.getD i0 ' ')) [] st).2 := by
  obtain ⟨hb1, hb2, hb3, hb4⟩ := hst
  by_cases hjs : b2jGet u (u.getD i0 ' ') = []
  · rw [hjs]
    constructor
    · constructor
      · intro j k hk
        simp [flmInner_nil] at hk
      · intro h1 hpres
        rw [Nat.add_sub_cancel] at hpres
        exact absurd hjs hpres
    · refine ⟨hb1, ?_, by simpa [flmInner_nil] using by omega, hb4⟩
      rw [maxRun_succ_eq, runLen_eq_zero hjs]
      simpa [flmInner_nil] using by omega
  · have hmem : i0 ∈ b2jGet u (u.getD i0 ' ') := self_mem_b2jGet hi0 hjs
    obtain ⟨L, R, hsplit, hL, hR⟩ := pairwise_split (b2jGet_pairwise u _) hmem
    have hLmem : ∀ j ∈ L, j ∈ b2jGet u (u.getD i0 ' ') := by
      rw [hsplit]; exact fun j hj => List.mem_append.mpr (Or.inl hj)
    have hRmem : ∀ j ∈ R, j ∈ b2jGet u (u.getD i0 ' ') := by
      rw [hsplit]
      exact fun j hj => List.mem_append.mpr (Or.inr (List.mem_cons_of_mem _ hj))
    have hk0 : chainK pl i0 = runLen u i0 := chainK_diag hpl hjs
    have hrpos : 1 ≤ runLen u i0 := runLen_pos hjs
    rw [hsplit, flmInner_append 0 u.length i0 pl L (i0 :: R) [] st
      (fun j hj => (mem_b2jGet (hLmem j hj)).1)]
    obtain ⟨eL1, eL2, eL3⟩ := flmInner_nofire 0 u.length i0 pl L [] st
      (fun j hj => le_trans (chainK_bound hpl (hLmem j hj)).2
        (le_trans (runLen_le_maxRun u i0 j (hL j hj)) hb2))
    rw [flmInner_cons, if_neg (by omega : ¬ i0 < 0), if_neg (not_le.mpr hi0), eL1]
    -- the state after the diagonal candidate
    set st' : FLMState :=
      if st.bestsize < chainK pl i0 then
        ⟨i0 + 1 - chainK pl i0, i0 + 1 - chainK pl i0, chainK pl i0⟩
      else st with hst'
    have hst'size : runLen u i0 ≤ st'.bestsize ∧ BestPre u (i0 + 1) st' := by
      rw [hst']
      by_cases hfire : st.bestsize < chainK pl i0
      · rw [if_pos hfire]
        refine ⟨by simp [hk0], rfl, ?_, ?_, ?_⟩
        · rw [maxRun_succ_eq]
          simp only [FLMState.bestsize]
          rw [hk0] at hfire ⊢
          omega
        · simp only [FLMState.besti, FLMState.bestsize]
          have := runLen_le u i0
          rw [hk0]
          omega
        · simp only [FLMState.bestsize, FLMState.besti]
          omega
      · rw [if_neg hfire]
        rw [hk0] at hfire
        refine ⟨by omega, hb1, ?_, by omega, hb4⟩
        rw [maxRun_succ_eq]
        omega
    obtain ⟨eR1, eR2, eR3⟩ := flmInner_nofire 0 u.length i0 pl R
      ((i0, chainK pl i0) :: (flmInner 0 u.length i0 pl L [] st).1) st'
      (fun j hj => le_trans (chainK_bound hpl (hRmem j hj)).1 hst'size.1)
    constructor
    · constructor
      · intro x k hk
        have hmain : x ∈ b2jGet u (u.getD i0 ' ') ∧ k = chainK pl x := by
          rcases eR3 x k hk with h' | h'
          · by_cases hxi : x = i0
            · subst hxi
              rw [List.lookup_cons_self] at h'
              exact ⟨hmem, (Option.some.inj h').symm⟩
            · rw [List.lookup_cons] at h'
              simp only [show (x == i0) = false from beq_eq_false_iff_ne.mpr hxi] at h'
              rcases eL3 x k h' with h'' | h''
              · simp at h''
              · exact ⟨hLmem x h''.1, h''.2⟩
          · exact ⟨hRmem x h'.1, h'.2⟩
        obtain ⟨hx, rfl⟩ := hmain
        obtain ⟨hxlen, hxchar⟩ := mem_b2jGet hx
        have hxpres := mem_b2jGet_self_present hx
        obtain ⟨hcb1, hcb2⟩ := chainK_bound hpl hx
        rw [Nat.add_sub_cancel]
        exact ⟨hxlen, hxchar, hxpres, by omega, hcb1, hcb2⟩
      · intro h1 hpres
        rw [Nat.add_sub_cancel]
        have hi0R : i0 ∉ R := fun hc => absurd (hR i0 hc) (by omega)
        rw [eR2 i0 hi0R, List.lookup_cons_self, hk0]
    · rw [eR1]
      exact hst'size.2

theorem flmOuter_self (u : List Char) :
    ∀ (cnt i0 : Nat) (pl : List (Nat × Nat)) (st : FLMState),
      i0 + cnt = u.length → J2Pre u i0 pl → BestPre u i0 st →
      BestPre u u.length (flmOuter u u 0 u.length (List.range' i0 cnt) pl st) := by
  intro cnt
  induction cnt with
  | zero =>
    intro i0 pl st hlen hpl hst
    have : i0 = u.length := by omega
    subst this
    exact hst
  | succ cnt ih =>
    intro i0 pl st hlen hpl hst
    rw [List.range'_succ, flmOuter_cons]
    have hi0 : i0 < u.length := by omega
    obtain ⟨h1, h2⟩ := flmInner_self_step u i0 hi0 pl st hpl hst
    exact ih (i0 + 1) _ _ (by omega) h1 h2

theorem extendBackF_self (u : List Char) :
    ∀ (fuel bi bs : Nat), bi ≤ fuel →
      extendBackF u u 0 0 fuel ⟨bi, bi, bs⟩ = ⟨0, 0, bs + bi⟩ := by
  intro fuel
  induction fuel with
  | zero =>
    intro bi bs h
    obtain rfl : bi = 0 := by omega
    rfl
  | succ fuel ih =>
    intro bi bs h
    show (if 0 < bi ∧ 0 < bi ∧ u.getD (bi - 1) ' ' = u.getD (bi - 1) ' ' then
        extendBackF u u 0 0 fuel ⟨bi - 1, bi - 1, bs + 1⟩ else ⟨bi, bi, bs⟩) = _
    by_cases hbi : 0 < bi
    · rw [if_pos ⟨hbi, hbi, rfl⟩, ih (bi - 1) (bs + 1) (by omega)]
      have : bs + 1 + (bi - 1) = bs + bi := by omega
      rw [this]
    · rw [if_neg (fun hc => hbi hc.1)]
      obtain rfl : bi = 0 := by omega
      rfl

theorem extendFwdF_self (u : List Char) (n : Nat) :
    ∀ (fuel k : Nat), k ≤ n → n - k ≤ fuel →
      extendFwdF u u n n fuel ⟨0, 0, k⟩ = ⟨0, 0, n⟩ := by
  intro fuel
  induction fuel with
  | zero =>
    intro k h1 h2
    obtain rfl : k = n := by omega
    rfl
  | succ fuel ih =>
    intro k h1 h2
    show (if 0 + k < n ∧ 0 + k < n ∧ u.getD (0 + k) ' ' = u.getD (0 + k) ' ' then
        extendFwdF u u n n fuel ⟨0, 0, k + 1⟩ else ⟨0, 0, k⟩) = _
    by_cases hk : 0 + k < n
    · rw [if_pos ⟨hk, hk, rfl⟩]
      exact ih (k + 1) (by omega) (by omega)
    · rw [if_neg (fun hc => hk hc.1)]
      obtain rfl : k = n := by omega
      rfl

theorem flm_self (u : List Char) :
    find_longest_match u u 0 u.length 0 u.length = ⟨0, 0, u.length⟩ := by
  unfold find_longest_match
  rw [Nat.sub_zero]
  have hpre : J2Pre u 0 [] := ⟨fun j k hk => by simp at hk, fun h1 _ => by omega⟩
  have hbest : BestPre u 0 ⟨0, 0, 0⟩ := ⟨rfl, le_refl _, Nat.le_refl 0, fun _ => rfl⟩
  have houter := flmOuter_self u u.length 0 [] ⟨0, 0, 0⟩ (by omega) hpre hbest
  rcases hstv : flmOuter u u 0 u.length (List.range' 0 u.length) [] ⟨0, 0, 0⟩ with ⟨bi, bj, bs⟩
  rw [hstv] at houter
  obtain ⟨b1, b2, b3, b4⟩ := houter
  simp only [FLMState.besti, FLMState.bestj, FLMState.bestsize] at b1 b3
  subst b1
  rw [show extendBack u u 0 0 ⟨bi, bi, bs⟩ = ⟨0, 0, bs + bi⟩ from
    extendBackF_self u bi bi bs (le_refl _)]
  show extendFwdF u u u.length u.length (u.length - (0 + (bs + bi))) ⟨0, 0, bs + bi⟩ =
    ⟨0, 0, u.length⟩
  exact extendFwdF_self u u.length (u.length - (0 + (bs + bi))) (bs + bi)
    (by omega) (by omega)

theorem matchTotalF_succ (a b : List Char) (fuel alo ahi blo bhi : Nat) :
    matchTotalF a b (fuel + 1) alo ahi blo bhi =
      if (find_longest_match a b alo ahi blo bhi).bestsize = 0 then 0
      else
        (find_longest_match a b alo ahi blo bhi).bestsize
          + (if alo < (find_longest_match a b alo ahi blo bhi).besti ∧
                blo < (find_longest_match a b alo ahi blo bhi).bestj then
              matchTotalF a b fuel alo (find_longest_match a b alo ahi blo bhi).besti blo
                (find_longest_match a b alo ahi blo bhi).bestj
            else 0)
          + (if (find_longest_match a b alo ahi blo bhi).besti
                  + (find_longest_match a b alo ahi blo bhi).bestsize < ahi ∧
                (find_longest_match a b alo ahi blo bhi).bestj
                  + (find_longest_match a b alo ahi blo bhi).bestsize < bhi then
              matchTotalF a b fuel
                ((find_longest_match a b alo ahi blo bhi).besti
                  + (find_longest_match a b alo ahi blo bhi).bestsize) ahi
                ((find_longest_match a b alo ahi blo bhi).bestj
                  + (find_longest_match a b alo ahi blo bhi).bestsize) bhi
            else 0) := rfl

theorem matchTotal_self (u : List Char) : matchTotal u u = u.length := by
  unfold matchTotal
  rw [matchTotalF_succ, flm_self]
  simp only [FLMState.besti, FLMState.bestj, FLMState.bestsize]
  rcases Nat.eq_zero_or_pos u.length with hn | hn
  · rw [if_pos hn]
    omega
  · rw [if_neg (by omega), if_neg (by omega), if_neg (by omega)]
    omega

theorem ratioQ_self (u : List Char) : ratioQ u u = 1 := by
  unfold ratioQ
  rcases Nat.eq_zero_or_pos u.length with hn | hn
  · rw [if_pos (by omega)]
  · rw [if_neg (by omega), matchTotal_self]
    have hne : (u.length : ℚ) ≠ 0 := Nat.cast_ne_zero.mpr (by omega)
    field_simp
    ring

theorem matchTotal_nil_left (u : List Char) : matchTotal [] u = 0 := rfl

theorem extendFwdF_bhi_zero (u v : List Char) (n : Nat) :
    ∀ fuel, extendFwdF u v n 0 fuel ⟨0, 0, 0⟩ = ⟨0, 0, 0⟩ := by
  intro fuel
  cases fuel with
  | zero => rfl
  | succ fuel =>
    show (if 0 + 0 < n ∧ 0 + 0 < 0 ∧ _ then _ else _) = _
    rw [if_neg (fun hc => by omega)]

theorem flmOuter_bnil (u : List Char) (blo bhi : Nat) :
    ∀ (l : List Nat) (pl : List (Nat × Nat)) (st : FLMState),
      flmOuter u [] blo bhi l pl st = st := by
  intro l
  induction l with
  | nil => intro pl st; rfl
  | cons i is ih =>
    intro pl st
    rw [flmOuter_cons]
    exact ih _ _

theorem matchTotal_nil_right (u : List Char) : matchTotal u [] = 0 := by
  have hflm : find_longest_match u [] 0 u.length 0 0 = ⟨0, 0, 0⟩ := by
    unfold find_longest_match
    rw [flmOuter_bnil]
    show extendFwdF u [] u.length 0 (u.length - (0 + 0)) ⟨0, 0, 0⟩ = ⟨0, 0, 0⟩
    exact extendFwdF_bhi_zero u [] u.length _
  show matchTotalF u [] (u.length + ([] : List Char).length + 1) 0 u.length 0
    ([] : List Char).length = 0
  rw [matchTotalF_succ]
  simp only [List.length_nil]
  rw [hflm]
  rfl

theorem ratioQ_nil_comm (u : List Char) : ratioQ u [] = ratioQ [] u := by
  unfold ratioQ
  simp only [List.length_nil, matchTotal_nil_left, matchTotal_nil_right,
    Nat.cast_zero, mul_zero, zero_div, add_zero, zero_add, Nat.cast_ofNat, CharP.cast_eq_zero]

/-- C7: two fragments agreeing in text, bounding box, font, size and color
are similar for every configuration with `similarity_threshold` in `[0, 1]`
and nonnegative `position_threshold`, with or without formatting checking
(the similarity ratio of a string with itself is 1, even when autojunk
prunes popular characters). -/
theorem pdf_c7 (cfg : PDFComparer) (b1 b2 : TextBlock)
    (htext : b1.text = b2.text) (hbox : b1.bbox = b2.bbox) (hfont : b1.font = b2.font)
    (hsize : b1.size = b2.size) (hcolor : b1.color = b2.color)
    (hsim0 : 0 ≤ cfg.similarity_threshold) (hsim1 : cfg.similarity_threshold ≤ 1)
    (hpos : 0 ≤ cfg.position_threshold) :
    blocks_are_similar cfg b1 b2 = true := by
  have hts : text_similar cfg b1 b2 = true := by
    unfold text_similar calculate_text_similarity
    rw [htext, ratioQ_self]
    exact decide_eq_true hsim1
  have hps : position_similar cfg b1 b2 = true := by
    unfold position_similar
    rw [hbox]
    simp only [sub_self, abs_zero]
    simp [hpos]
  have hfs : formatting_similar b1 b2 = true := by
    unfold formatting_similar
    rw [hfont, hsize, hcolor]
    simp only [sub_self, abs_zero]
    norm_num
  unfold blocks_are_similar
  rcases hcf : cfg.check_formatting <;> simp [hts, hps, hfs]

unseal Rat.mul Rat.inv Rat.add Rat.sub in
/-- C7 witness: a fragment identical to itself is similar under the default
configuration. -/
theorem pdf_c7_witness :
    blocks_are_similar defaultPDFComparer blkHello blkHello = true :=
  pdf_c7 defaultPDFComparer blkHello blkHello rfl rfl rfl rfl rfl
    (by decide) (by decide) (by decide)

unseal Rat.mul Rat.inv Rat.add Rat.sub in
/-- C5 counterexample: the similarity ratio of difflib is not symmetric.
For the texts "ab" and "bacb" the matcher finds blocks of total size 2 in
one direction (ratio 2/3) but only size 1 in the other (ratio 1/3), because
the greedy longest-block choice is anchored on the first argument. -/
theorem pdf_c5_counterexample :
    calculate_text_similarity abChars bacbChars = 2/3 ∧
    calculate_text_similarity bacbChars abChars = 1/3 ∧
    calculate_text_similarity abChars bacbChars ≠
      calculate_text_similarity bacbChars abChars := by
  refine ⟨by decide, by decide, by decide⟩

/-- C5 amended: the ratio of `calculate_text_similarity` is symmetric when
the two normalized texts are equal, or when either normalized text is empty;
it is not symmetric in general. -/
theorem pdf_c5_amended (s t : List Char)
    (h : normalizeText s = normalizeText t ∨ normalizeText s = [] ∨ normalizeText t = []) :
    calculate_text_similarity s t = calculate_text_similarity t s := by
  unfold calculate_text_similarity
  rcases h with h | h | h
  · rw [h]
  · rw [h]
    exact (ratioQ_nil_comm _).symm
  · rw [h]
    exact ratioQ_nil_comm _

/-- C5 amended witness: "ab" and "ab " normalize identically, so their
similarity is symmetric. -/
theorem pdf_c5_witness :
    calculate_text_similarity abChars abSpaceChars =
      calculate_text_similarity abSpaceChars abChars :=
  pdf_c5_amended abChars abSpaceChars (Or.inl (by decide))

/-- C6: a pair whose similarity ratio equals `similarity_threshold` exactly
counts as text-similar (the comparison is `>=`, not `>`); with acceptable
position and formatting the blocks are similar and the modified block is not
reported as a difference. -/
theorem pdf_c6 (cfg : PDFComparer) (b1 b2 : TextBlock)
    (h1 : calculate_text_similarity b1.text b2.text = cfg.similarity_threshold)
    (h2 : position_similar cfg b1 b2 = true)
    (h3 : cfg.check_formatting = true → formatting_similar b1 b2 = true) :
    blocks_are_similar cfg b1 b2 = true ∧ matchPage cfg [b2] [b1] = [] := by
  have hts : text_similar cfg b1 b2 = true := by
    unfold text_similar
    rw [h1]
    exact decide_eq_true (le_refl _)
  have hsim : blocks_are_similar cfg b1 b2 = true := by
    unfold blocks_are_similar
    rcases hcf : cfg.check_formatting
    · simp [hts, h2]
    · simp [hts, h2, h3 hcf]
  refine ⟨hsim, ?_⟩
  unfold matchPage
  rw [if_neg (by simp), if_neg (by simp)]
  unfold pageUnmatched
  simp [pageTrace, scanOrig, List.find?, hsim]

unseal Rat.mul Rat.inv Rat.add Rat.sub in
/-- C6 witness: with the default threshold 0.8, "Hello" vs "Hallo" has ratio
exactly 4/5 and same box/formatting, so "Hallo" is similar and produces no
difference. -/
theorem pdf_c6_witness :
    blocks_are_similar defaultPDFComparer blkHallo blkHello = true ∧
    matchPage defaultPDFComparer [blkHello] [blkHallo] = [] :=
  pdf_c6 defaultPDFComparer blkHallo blkHello (by decide) (by decide)
    (fun _ => by decide)

/-- C8: two fragments identical in text and formatting whose boxes differ by
strictly more than `position_threshold` in at least one coordinate are not
similar, in either comparison order, and the moved fragment is reported as a
difference by the page matcher. -/
theorem pdf_c8 (cfg : PDFComparer) (b1 b2 : TextBlock)
    (htext : b1.text = b2.text) (hfont : b1.font = b2.font)
    (hsize : b1.size = b2.size) (hcolor : b1.color = b2.color)
    (hdiff : cfg.position_threshold < |b1.bbox.x0 - b2.bbox.x0| ∨
             cfg.position_threshold < |b1.bbox.y0 - b2.bbox.y0| ∨
             cfg.position_threshold < |b1.bbox.x1 - b2.bbox.x1| ∨
             cfg.position_threshold < |b1.bbox.y1 - b2.bbox.y1|) :
    blocks_are_similar cfg b1 b2 = false ∧ blocks_are_similar cfg b2 b1 = false ∧
    matchPage cfg [b2] [b1] = [b1] := by
  have hps : position_similar cfg b1 b2 = false := by
    unfold position_similar
    rcases hdiff with h | h | h | h <;> simp [not_le.mpr h]
  have hps' : position_similar cfg b2 b1 = false := by
    unfold position_similar
    rcases hdiff with h | h | h | h
    · rw [abs_sub_comm] at h
      simp [not_le.mpr h]
    · rw [abs_sub_comm] at h
      simp [not_le.mpr h]
    · rw [abs_sub_comm] at h
      simp [not_le.mpr h]
    · rw [abs_sub_comm] at h
      simp [not_le.mpr h]
  have hbs : blocks_are_similar cfg b1 b2 = false := by
    unfold blocks_are_similar
    rcases cfg.check_formatting <;> simp [hps]
  have hbs' : blocks_are_similar cfg b2 b1 = false := by
    unfold blocks_are_similar
    rcases cfg.check_formatting <;> simp [hps']
  refine ⟨hbs, hbs', ?_⟩
  unfold matchPage
  rw [if_neg (by simp), if_neg (by simp)]
  unfold pageUnmatched
  simp [pageTrace, scanOrig, List.find?, hbs]

unseal Rat.mul Rat.inv Rat.add Rat.sub in
/-- C8 witness: the same text moved by exactly `position_threshold + 0.1` in
one coordinate (x0: 0 to 5.1, threshold 5) is reported as a difference. -/
theorem pdf_c8_witness :
    blocks_are_similar defaultPDFComparer blkMoved blkHello = false ∧
    blocks_are_similar defaultPDFComparer blkHello blkMoved = false ∧
    matchPage defaultPDFComparer [blkHello] [blkMoved] = [blkMoved] :=
  pdf_c8 defaultPDFComparer blkMoved blkHello rfl rfl rfl rfl
    (Or.inl (by decide))

/-! ### Characterization of the per-page greedy matching (C1) -/

theorem pageTrace_nil (sim : TextBlock → TextBlock → Bool) (orig mo : List TextBlock)
    (avail : List Nat) : pageTrace sim orig mo [] avail = ([], []) := rfl

theorem pageTrace_cons (sim : TextBlock → TextBlock → Bool) (orig mo : List TextBlock)
    (i : Nat) (is avail : List Nat) :
    pageTrace sim orig mo (i :: is) avail =
      match scanOrig sim (mo.getD i default) orig avail with
      | some j => ((i, j) :: (pageTrace sim orig mo is (avail.erase j)).1,
          (pageTrace sim orig mo is (avail.erase j)).2)
      | none => ((pageTrace sim orig mo is avail).1,
          i :: (pageTrace sim orig mo is avail).2) := rfl

theorem pageTrace_unmatched_sublist (sim : TextBlock → TextBlock → Bool)
    (orig mo : List TextBlock) :
    ∀ (is avail : List Nat), List.Sublist (pageTrace sim orig mo is avail).2 is := by
  intro is
  induction is with
  | nil => intro avail; exact List.Sublist.refl _
  | cons i is ih =>
    intro avail
    rw [pageTrace_cons]
    cases h : scanOrig sim (mo.getD i default) orig avail with
    | some j =>
      simp only
      exact (ih (avail.erase j)).cons i
    | none =>
      simp only
      exact (ih avail).cons₂ i

theorem pageTrace_fst_sublist (sim : TextBlock → TextBlock → Bool)
    (orig mo : List TextBlock) :
    ∀ (is avail : List Nat), List.Sublist ((pageTrace sim orig mo is avail).1.map Prod.fst) is := by
  intro is
  induction is with
  | nil => intro avail; exact List.Sublist.refl _
  | cons i is ih =>
    intro avail
    rw [pageTrace_cons]
    cases h : scanOrig sim (mo.getD i default) orig avail with
    | some j =>
      simp only [List.map_cons]
      exact (ih (avail.erase j)).cons₂ i
    | none =>
      simp only
      exact (ih avail).cons i

theorem pageTrace_unmatched_filter (sim : TextBlock → TextBlock → Bool)
    (orig mo : List TextBlock) :
    ∀ (is avail : List Nat), is.Nodup →
      (pageTrace sim orig mo is avail).2 =
        is.filter (fun i => decide (i ∉ (pageTrace sim orig mo is avail).1.map Prod.fst)) := by
  intro is
  induction is with
  | nil => intro avail _; rfl
  | cons i is ih =>
    intro avail hnd
    have hi : i ∉ is := (List.nodup_cons.mp hnd).1
    have hnd' : is.Nodup := (List.nodup_cons.mp hnd).2
    rw [pageTrace_cons]
    cases h : scanOrig sim (mo.getD i default) orig avail with
    | some j =>
      simp only [List.map_cons, List.filter_cons]
      have hii : (decide (i ∉ (i, j).1 :: (pageTrace sim orig mo is (avail.erase j)).1.map Prod.fst)) = false := by
        simp
      rw [hii, if_neg (by simp)]
      rw [ih (avail.erase j) hnd']
      apply List.filter_congr
      intro x hx
      have hxi : x ≠ i := fun hc => hi (hc ▸ hx)
      simp [hxi]
    | none =>
      simp only [List.filter_cons]
      have hii : (decide (i ∉ (pageTrace sim orig mo is avail).1.map Prod.fst)) = true := by
        have := pageTrace_fst_sublist sim orig mo is avail
        simp only [decide_eq_true_eq]
        intro hc
        exact hi (this.subset hc)
      rw [hii, if_pos rfl]
      rw [ih avail hnd']

theorem pageTrace_pairs_mem (sim : TextBlock → TextBlock → Bool)
    (orig mo : List TextBlock) :
    ∀ (is avail : List Nat), ∀ pr ∈ (pageTrace sim orig mo is avail).1,
      pr.2 ∈ avail ∧ sim (mo.getD pr.1 default) (orig.getD pr.2 default) = true := by
  intro is
  induction is with
  | nil => intro avail pr hpr; cases hpr
  | cons i is ih =>
    intro avail pr hpr
    rw [pageTrace_cons] at hpr
    cases h : scanOrig sim (mo.getD i default) orig avail with
    | some j =>
      rw [h] at hpr
      simp only [List.mem_cons] at hpr
      rcases hpr with rfl | hpr
      · refine ⟨List.mem_of_find?_eq_some h, ?_⟩
        have := List.find?_some h
        simpa using this
      · obtain ⟨hmem, hsim⟩ := ih (avail.erase j) pr hpr
        exact ⟨(List.erase_sublist _ _).subset hmem, hsim⟩
    | none =>
      rw [h] at hpr
      exact ih avail pr hpr

theorem pageTrace_snd_nodup (sim : TextBlock → TextBlock → Bool)
    (orig mo : List TextBlock) :
    ∀ (is avail : List Nat), avail.Nodup →
      ((pageTrace sim orig mo is avail).1.map Prod.snd).Nodup := by
  intro is
  induction is with
  | nil => intro avail _; exact List.nodup_nil
  | cons i is ih =>
    intro avail hnd
    rw [pageTrace_cons]
    cases h : scanOrig sim (mo.getD i default) orig avail with
    | some j =>
      simp only [List.map_cons, List.nodup_cons]
      refine ⟨?_, ih (avail.erase j) (hnd.erase j)⟩
      intro hc
      simp only [List.mem_map] at hc
      obtain ⟨pr, hpr, hpr2⟩ := hc
      have := (pageTrace_pairs_mem sim orig mo is (avail.erase j) pr hpr).1
      rw [hpr2] at this
      exact hnd.not_mem_erase this
    | none =>
      simp only
      exact ih avail hnd

theorem find?_sorted_min {l : List Nat} {p : Nat → Bool} {j : Nat}
    (hs : l.Pairwise (· < ·)) (hf : l.find? p = some j) :
    ∀ x ∈ l, x < j → p x = false := by
  induction l with
  | nil => intro x hx; cases hx
  | cons a l ih =>
    intro x hx hlt
    rw [List.find?_cons] at hf
    rcases List.mem_cons.mp hx with rfl | hx'
    · cases hpa : p x with
      | false => rfl
      | true =>
        rw [hpa] at hf
        have : x = j := by simpa using hf
        omega
    · cases hpa : p a with
      | false =>
        rw [hpa] at hf
        exact ih (List.pairwise_cons.mp hs).2 hf x hx' hlt
      | true =>
        rw [hpa] at hf
        have haj : a = j := by simpa using hf
        have : a < x := (List.pairwise_cons.mp hs).1 x hx'
        omega

theorem pageTrace_first_fit (sim : TextBlock → TextBlock → Bool)
    (orig mo : List TextBlock) :
    ∀ (is avail : List Nat), avail.Pairwise (· < ·) →
      ∀ (p1 : List (Nat × Nat)) (pr : Nat × Nat) (p2 : List (Nat × Nat)),
        (pageTrace sim orig mo is avail).1 = p1 ++ pr :: p2 →
        ∀ j' ∈ avail, j' < pr.2 →
          sim (mo.getD pr.1 default) (orig.getD j' default) = true →
          j' ∈ p1.map Prod.snd := by
  intro is
  induction is with
  | nil =>
    intro avail _ p1 pr p2 heq
    rw [pageTrace_nil] at heq
    exact absurd heq (by simp)
  | cons i is ih =>
    intro avail hs p1 pr p2 heq j' hj' hlt hsim
    rw [pageTrace_cons] at heq
    cases h : scanOrig sim (mo.getD i default) orig avail with
    | some j =>
      rw [h] at heq
      simp only at heq
      cases p1 with
      | nil =>
        simp only [List.nil_append, List.cons.injEq] at heq
        obtain ⟨rfl, -⟩ := heq
        have := find?_sorted_min hs h j' hj' hlt
        rw [hsim] at this
        cases this
      | cons q p1' =>
        simp only [List.cons_append, List.cons.injEq] at heq
        obtain ⟨hq, heq'⟩ := heq
        subst hq
        simp only [List.map_cons]
        by_cases hjj : j' = j
        · simp [hjj]
        · have hj'e : j' ∈ avail.erase j := (List.mem_erase_of_ne hjj).mpr hj'
          have hmem := ih (avail.erase j)
            (List.Pairwise.sublist (List.erase_sublist _ _) hs) p1' pr p2 heq'
            j' hj'e hlt hsim
          exact List.mem_cons_of_mem _ hmem
    | none =>
      rw [h] at heq
      simp only at heq
      exact ih avail hs p1 pr p2 heq j' hj' hlt hsim

/-- C1: on a page where both sides are non-empty, the matching is greedy
first-fit and one-to-one: the result lists the modified blocks at the
unmatched indices, an index is unmatched exactly when no pair claims it,
matched original indices are distinct and in range with the similarity
predicate true on each pair (called as `blocks_are_similar(mod, orig)`),
and each matched original index is the first still-unmatched one: any
smaller similar index was already matched by an earlier modified fragment. -/
theorem pdf_c1 (cfg : PDFComparer) (orig mo : List TextBlock)
    (h1 : orig ≠ []) (h2 : mo ≠ []) :
    matchPage cfg orig mo =
      (pageUnmatched (blocks_are_similar cfg) orig mo).map (fun i => mo.getD i default)
    ∧ pageUnmatched (blocks_are_similar cfg) orig mo =
        (List.range mo.length).filter (fun i =>
          decide (i ∉ (pageMatchPairs (blocks_are_similar cfg) orig mo).map Prod.fst))
    ∧ ((pageMatchPairs (blocks_are_similar cfg) orig mo).map Prod.snd).Nodup
    ∧ (∀ pr ∈ pageMatchPairs (blocks_are_similar cfg) orig mo,
        pr.2 < orig.length ∧
        blocks_are_similar cfg (mo.getD pr.1 default) (orig.getD pr.2 default) = true)
    ∧ (∀ (p1 : List (Nat × Nat)) (pr : Nat × Nat) (p2 : List (Nat × Nat)),
        pageMatchPairs (blocks_are_similar cfg) orig mo = p1 ++ pr :: p2 →
        ∀ j' < pr.2,
          blocks_are_similar cfg (mo.getD pr.1 default) (orig.getD j' default) = true →
          j' ∈ p1.map Prod.snd) := by
  refine ⟨?_, ?_, ?_, ?_, ?_⟩
  · unfold matchPage
    rw [if_neg (by simpa using h1), if_neg (by simpa using h2)]
  · exact pageTrace_unmatched_filter (blocks_are_similar cfg) orig mo
      (List.range mo.length) (List.range orig.length) (List.nodup_range _)
  · exact pageTrace_snd_nodup (blocks_are_similar cfg) orig mo
      (List.range mo.length) (List.range orig.length) (List.nodup_range _)
  · intro pr hpr
    have := pageTrace_pairs_mem (blocks_are_similar cfg) orig mo
      (List.range mo.length) (List.range orig.length) pr hpr
    exact ⟨List.mem_range.mp this.1, this.2⟩
  · intro p1 pr p2 heq j' hlt hsim
    have hpr2 : pr.2 < orig.length := by
      have hmem : pr ∈ pageMatchPairs (blocks_are_similar cfg) orig mo := by
        rw [heq]
        exact List.mem_append.mpr (Or.inr (List.mem_cons_self _ _))
      exact List.mem_range.mp
        (pageTrace_pairs_mem (blocks_are_similar cfg) orig mo
          (List.range mo.length) (List.range orig.length) pr hmem).1
    exact pageTrace_first_fit (blocks_are_similar cfg) orig mo
      (List.range mo.length) (List.range orig.length) (List.pairwise_lt_range _)
      p1 pr p2 heq j' (List.mem_range.mpr (by omega)) hlt hsim

unseal Rat.mul Rat.inv Rat.add Rat.sub in
/-- C1 witness: original ["Hello"], modified ["Hello", "World"]: the "Hello"
pair is matched greedily and only "World" is returned as a difference. -/
theorem pdf_c1_witness :
    matchPage defaultPDFComparer [blkHello] [blkHello, blkWorld] = [blkWorld] := by
  have h := pdf_c1 defaultPDFComparer [blkHello] [blkHello, blkWorld]
    (by simp) (by simp)
  rw [h.1]
  decide

/-- C4 counterexample: with an empty original store and modified pages
{1, 8}, CPython's hash-set iteration visits page 8 before page 1 (slot
8 mod 8 = 0 precedes slot 1), so the aggregated difference list is not in
ascending page order. -/
theorem pdf_c4_counterexample :
    (find_differences defaultPDFComparer [] c4ModStore).map TextBlock.page = [8, 1] ∧
    ¬ List.Pairwise (· ≤ ·)
        ((find_differences defaultPDFComparer [] c4ModStore).map TextBlock.page) := by
  refine ⟨by decide, by decide⟩

theorem map_getD_range {α : Type} (l : List α) (d : α) :
    (List.range l.length).map (fun i => l.getD i d) = l := by
  induction l with
  | nil => rfl
  | cons a l ih =>
    rw [List.length_cons, List.range_succ_eq_map, List.map_cons, List.map_map]
    have hcomp : ((fun i => (a :: l).getD i d) ∘ Nat.succ) = (fun i => l.getD i d) := rfl
    rw [hcomp, ih]
    rfl

/-- C4 amended: within each page the unmatched modified fragments keep
their given relative order (each page's result is a subsequence of that
page's modified sequence), and the aggregate concatenates the per-page
results in CPython's set-enumeration order of the union of page keys —
which is not ascending page order in general. -/
theorem pdf_c4_amended :
    (∀ (cfg : PDFComparer) (orig mo : List TextBlock),
        List.Sublist (matchPage cfg orig mo) mo)
    ∧ (∀ (cfg : PDFComparer) (oS mS : Store),
        find_differences cfg oS mS =
          (pyUnionOrder (storeKeys oS) (storeKeys mS)).flatMap
            (fun p => matchPage cfg (storeLookup oS p) (storeLookup mS p))) := by
  constructor
  · intro cfg orig mo
    unfold matchPage
    by_cases ho : orig.isEmpty
    · rw [if_pos ho]
    · rw [if_neg ho]
      by_cases hm : mo.isEmpty
      · rw [if_pos hm]
        simp
      · rw [if_neg hm]
        have hsub := pageTrace_unmatched_sublist (blocks_are_similar cfg) orig mo
          (List.range mo.length) (List.range orig.length)
        have hmap := hsub.map (fun i => mo.getD i default)
        rwa [map_getD_range] at hmap
  · intro cfg oS mS
    rfl
